import Mathlib

/-!
Verification development for the fuzzy-truck driver
(`src/fuzzy_truck/driver.py`).

The driver wires a Mamdani fuzzy controller (three `automf`-generated
linguistic variables and a 35-rule base) to a line-based socket protocol.
The controller pipeline itself lives in the external `skfuzzy` library,
which is not part of the repository sources; those parts are modelled
from the specification (membership shapes §4.1, `automf` §4.2, rule
evaluation §4.3, the five-stage `compute` pipeline §4.4).  Everything
else (universes, term names, the rule table, the socket driver logic) is
translated from `driver.py`.

All numerics use exact rational arithmetic (`ℚ`); the spec's 1e-9
tolerances are subsumed by exact equalities.
-/

/-- `np.arange(start, stop, 1)` for integer bounds, as used by
`_setup_fuzzy_variables`: the samples `start, start+1, …, stop-1`
(the stop value itself is excluded), injected into `ℚ`. -/
def arange1 (start stop : ℤ) : List ℚ :=
  (List.range (stop - start).toNat).map (fun k : ℕ => (start : ℚ) + (k : ℚ))

/-- Universe of the `x_position` antecedent: `np.arange(0, 11, 1)`,
i.e. the samples `0 … 10`. -/
def xUniverse : List ℚ := arange1 0 11

/-- Universe of the `truck_angle` antecedent: `np.arange(0, 180, 1)`,
i.e. the samples `0 … 179` (180 itself is not a sample). -/
def angleUniverse : List ℚ := arange1 0 180

/-- Universe of the `movement` consequent: `np.arange(-30, 31, 1)`,
i.e. the samples `-30 … 30`. -/
def movementUniverse : List ℚ := arange1 (-30) 31

/-- Modelled from the spec (§4.1): triangular membership function with
feet `l`, `r` and peak `p`, evaluated at `x` by linear interpolation;
0 outside the support. -/
def tri (l p r x : ℚ) : ℚ :=
  if x ≤ l then 0
  else if x ≤ p then (x - l) / (p - l)
  else if x ≤ r then (r - x) / (r - p)
  else 0

/-- Modelled from the spec (§4.2): left-shoulder membership function,
flat at degree 1 up to the peak `p`, falling linearly to 0 at `r`. -/
def leftShoulder (p r x : ℚ) : ℚ :=
  if x ≤ p then 1
  else if x ≤ r then (r - x) / (r - p)
  else 0

/-- Modelled from the spec (§4.2): right-shoulder membership function,
rising linearly from 0 at `l` to degree 1 at the peak `p`, flat at 1
beyond it. -/
def rightShoulder (l p x : ℚ) : ℚ :=
  if x ≤ l then 0
  else if x ≤ p then (x - l) / (p - l)
  else 1

/-- Modelled from the spec (§4.2): the `i`-th peak of an
`automf(n, …)` family over the domain `[lo, hi]`:
`lo + i*(hi-lo)/(n-1)`. -/
def automfPeak (lo hi : ℚ) (n i : ℕ) : ℚ :=
  lo + (i : ℚ) * ((hi - lo) / ((n : ℚ) - 1))

/-- Modelled from the spec (§4.2, `automf`): the membership function of
the `i`-th of `n` evenly spaced terms over `[lo, hi]`.  The first term
is a left shoulder, the last a right shoulder, interior terms are
triangles spanning from the previous peak to the next peak. -/
def automfTerm (lo hi : ℚ) (n i : ℕ) : ℚ → ℚ :=
  if i = 0 then leftShoulder (automfPeak lo hi n 0) (automfPeak lo hi n 1)
  else if i = n - 1 then
    rightShoulder (automfPeak lo hi n (n - 2)) (automfPeak lo hi n (n - 1))
  else tri (automfPeak lo hi n (i - 1)) (automfPeak lo hi n i)
    (automfPeak lo hi n (i + 1))

/-- Membership functions of `x_position` after `self.x.automf(5, …)`:
five terms over the domain `[0, 10]` (the universe's min and max
samples).  Index order follows the source's `names` list:
0 `left_big`, 1 `left_medium`, 2 `centered`, 3 `right_medium`,
4 `right_big`. -/
def xMf (i : ℕ) : ℚ → ℚ := automfTerm 0 10 5 i

/-- Membership functions of `truck_angle` after `self.angle.automf(7, …)`:
seven terms over the domain `[0, 179]` — the universe's min and max
samples; note `np.arange(0, 180, 1)` stops at 179.  Index order follows
the source's `names` list: 0 `large_below_90`, 1 `medium_below_90`,
2 `small_below_90`, 3 `at_90`, 4 `small_above_90`, 5 `medium_above_90`,
6 `large_above_90`. -/
def angleMf (i : ℕ) : ℚ → ℚ := automfTerm 0 179 7 i

/-- Membership functions of `movement` after `self.movement.automf(7, …)`:
seven terms over the domain `[-30, 30]`.  Index order follows the
source's `names` list: 0 `NB`, 1 `NM`, 2 `NS`, 3 `ZE`, 4 `PS`, 5 `PM`,
6 `PB`. -/
def movementMf (i : ℕ) : ℚ → ℚ := automfTerm (-30) 30 7 i

/-- One rule of `_setup_fuzzy_rules`: every rule there has the form
`ctrl.Rule(self.angle[a] & self.x[b], self.movement[c])`, so a rule is
determined by the three term indices. -/
structure FRule where
  angleTerm : ℕ
  xTerm : ℕ
  outTerm : ℕ
deriving DecidableEq, Repr

/-- The 35 rules of `_setup_fuzzy_rules`, in source order, using the
term index orders documented at `angleMf`, `xMf` and `movementMf`
(angle: 0 = `large_below_90` … 6 = `large_above_90`;
x: 0 = `left_big` … 4 = `right_big`;
movement: 0 = `NB`, 1 = `NM`, 2 = `NS`, 3 = `ZE`, 4 = `PS`, 5 = `PM`,
6 = `PB`). -/
def rules : List FRule := [
  -- Left Big
  ⟨0, 0, 6⟩, ⟨1, 0, 6⟩, ⟨2, 0, 6⟩, ⟨3, 0, 6⟩, ⟨4, 0, 5⟩, ⟨5, 0, 0⟩, ⟨6, 0, 0⟩,
  -- Left Medium
  ⟨0, 1, 6⟩, ⟨1, 1, 6⟩, ⟨2, 1, 5⟩, ⟨3, 1, 5⟩, ⟨4, 1, 4⟩, ⟨5, 1, 1⟩, ⟨6, 1, 1⟩,
  -- Centered
  ⟨0, 2, 6⟩, ⟨1, 2, 5⟩, ⟨2, 2, 4⟩, ⟨3, 2, 3⟩, ⟨4, 2, 1⟩, ⟨5, 2, 1⟩, ⟨6, 2, 0⟩,
  -- Right Medium
  ⟨0, 3, 6⟩, ⟨1, 3, 5⟩, ⟨2, 3, 4⟩, ⟨3, 3, 1⟩, ⟨4, 3, 2⟩, ⟨5, 3, 5⟩, ⟨6, 3, 5⟩,
  -- Right Big
  ⟨0, 4, 5⟩, ⟨1, 4, 4⟩, ⟨2, 4, 3⟩, ⟨3, 4, 0⟩, ⟨4, 4, 1⟩, ⟨5, 4, 6⟩, ⟨6, 4, 6⟩]

/-- Modelled from the spec (§4.3, §4.4 stage 2): the firing strength of
a rule at crisp inputs `angle` and `x` — all rules have weight 1 and an
antecedent `And(TermRef(truck_angle, _), TermRef(x_position, _))`, so
the strength is the `min` of the two fuzzified degrees. -/
def firing (angle x : ℚ) (r : FRule) : ℚ :=
  min (angleMf r.angleTerm angle) (xMf r.xTerm x)

/-- Modelled from the spec (§4.4 stage 3, Mamdani min implication):
the implied degree of one rule at consequent-universe sample `u` is
the pointwise `min` of the consequent term's membership and the rule's
firing strength. -/
def ruleImplied (angle x : ℚ) (r : FRule) (u : ℚ) : ℚ :=
  min (movementMf r.outTerm u) (firing angle x r)

/-- Modelled from the spec (§4.4 stage 4, max aggregation): the
aggregated membership degree at consequent-universe sample `u` is the
pointwise maximum over all rules' implied sets. -/
def aggregated (angle x u : ℚ) : ℚ :=
  (rules.map (fun r => ruleImplied angle x r u)).foldr max 0

/-- Modelled from the spec (§4.4 stage 5): `Σ degree_i` over the
`movement` universe samples, for the aggregated set of inputs
`(angle, x)`. -/
def aggArea (angle x : ℚ) : ℚ :=
  (movementUniverse.map (aggregated angle x)).sum

/-- Modelled from the spec (§4.4 stage 5): `Σ (u_i * degree_i)` over
the `movement` universe samples, for the aggregated set of inputs
`(angle, x)`. -/
def aggMoment (angle x : ℚ) : ℚ :=
  (movementUniverse.map (fun u => u * aggregated angle x u)).sum

/-- Modelled from the spec (§4.4 stage 5, centroid defuzzification of
an arbitrary aggregated degree array over the `movement` universe):
`crisp = Σ(u_i * degree_i) / Σ(degree_i)`; no value (the
`NoRuleFiredError` case) when `Σ degree_i = 0`. -/
def defuzzCentroid (d : ℚ → ℚ) : Option ℚ :=
  if (movementUniverse.map d).sum = 0 then none
  else some ((movementUniverse.map (fun u => u * d u)).sum /
    (movementUniverse.map d).sum)

/-- Modelled from the spec (§4.4): one `simulator.compute()` pass of
the driver's control system at crisp inputs `angle` (`truck_angle`)
and `x` (`x_position`): fuzzify, evaluate the 35 rules, implicate,
aggregate, and defuzzify by centroid.  `none` models the no-rule-fired
failure. -/
def compute (angle x : ℚ) : Option ℚ :=
  if aggArea angle x = 0 then none
  else some (aggMoment angle x / aggArea angle x)

/-! ## The socket driver (`Driver` methods), from `driver.py`

State beyond the immutable controller is the single `done` flag.  One
call of `get_position_and_angle` or `play` is modelled as a function of
the current state and of what `recv` would return for this call (the
peer closing the connection gives a zero-length read).  Messages the
driver writes to the socket are collected as a list of events; raised
exceptions are modelled as `Except.error`. -/

/-- A message the driver sends on its socket: the state request
`b'r\r\n'` or a steering command `f'{value}\r\n'` (the payload is
abstracted to the commanded value). -/
inductive NetEvent where
  | sendStateRequest : NetEvent
  | sendMovement (value : ℚ) : NetEvent
deriving DecidableEq

/-- What one `recv` call yields: a zero-length read (peer closed) or a
decoded payload, modelled as the list of its characters. -/
inductive RecvResult where
  | closed : RecvResult
  | data (payload : List Char) : RecvResult
deriving DecidableEq

/-- The driver's mutable flag state; `__init__` ends with
`self.done = False`. -/
structure DriverState where
  done : Bool
deriving DecidableEq, Repr

/-- The state a freshly constructed `Driver` is in (`self.done = False`). -/
def initialDriver : DriverState := ⟨false⟩

/-- `self.upper_limit = 1` from `__init__`. -/
def upperLimit : ℚ := 1

/-- `self.lower_limit = -1` from `__init__`. -/
def lowerLimit : ℚ := -1

/-- Python's `str.split(sep)` for a one-character separator, on the
character list of the string: `"".split(sep) = [""]`, and each
occurrence of `sep` starts a new (possibly empty) field. -/
def pySplit (sep : Char) : List Char → List (List Char)
  | [] => [[]]
  | c :: rest =>
    if c = sep then [] :: pySplit sep rest
    else
      match pySplit sep rest with
      | [] => [[c]]
      | g :: gs => (c :: g) :: gs

/-- Numeric value of a list of decimal digits, most significant first. -/
def digitsToNat (ds : List Char) : ℕ :=
  ds.foldl (fun acc c => 10 * acc + (c.toNat - 48)) 0

/-- The decimal fragment of Python's `float(s)` for an unsigned
numeral: digits with an optional single decimal point
(`"90"`, `"90."`, `".5"`, `"0.5"`); anything else fails. -/
def parseUnsigned (cs : List Char) : Option ℚ :=
  let intPart := cs.takeWhile (fun c => c.isDigit)
  let rest := cs.dropWhile (fun c => c.isDigit)
  match rest with
  | [] => if intPart.isEmpty then none else some ((digitsToNat intPart : ℕ) : ℚ)
  | c :: fracPart =>
    if c = '.' && fracPart.all (fun ch => ch.isDigit) &&
        !(intPart.isEmpty && fracPart.isEmpty)
    then some (((digitsToNat intPart : ℕ) : ℚ) +
      ((digitsToNat fracPart : ℕ) : ℚ) / (10 : ℚ) ^ fracPart.length)
    else none

/-- The decimal fragment of Python's `float(s)`, as invoked by
`get_position_and_angle` on each field of the reply: an optional sign
followed by an unsigned decimal numeral. -/
def parseDecimal (cs : List Char) : Option ℚ :=
  match cs with
  | [] => parseUnsigned []
  | c :: rest =>
    if c = '-' then (parseUnsigned rest).map (fun q => -q)
    else if c = '+' then parseUnsigned rest
    else parseUnsigned (c :: rest)

/-- The parsing step of `get_position_and_angle`:
`x, y, angle = ret.decode().split('\t')` followed by
`(float(x), float(y), float(angle))`.  `none` models the `ValueError`
raised when the reply does not split into exactly three fields or a
field is not a numeral. -/
def parseState (payload : List Char) : Option (ℚ × ℚ × ℚ) :=
  match pySplit '\t' payload with
  | [a, b, c] =>
    match parseDecimal a, parseDecimal b, parseDecimal c with
    | some x, some y, some angle => some (x, y, angle)
    | _, _, _ => none
  | _ => none

/-- One call of `Driver.get_position_and_angle`, given what `recv`
would return: if `done` is already set, return `None` immediately
(sending nothing); otherwise send `b'r\r\n'`; a zero-length read sets
`done` and returns `None`; otherwise parse the reply (`Except.error`
models the `ValueError` a malformed reply raises). -/
def get_position_and_angle (st : DriverState) (recv : RecvResult) :
    DriverState × Except Unit (Option (ℚ × ℚ × ℚ)) × List NetEvent :=
  if st.done then (st, .ok none, [])
  else
    match recv with
    | .closed => (⟨true⟩, .ok none, [.sendStateRequest])
    | .data payload =>
      match parseState payload with
      | some t => (st, .ok (some t), [.sendStateRequest])
      | none => (st, .error (), [.sendStateRequest])

/-- One call of `Driver.make_movement value`: raise `ValueError`
(sending nothing) when `value < self.lower_limit or
value > self.upper_limit`, otherwise send the steering command. -/
def make_movement (value : ℚ) : Except Unit Unit × List NetEvent :=
  if value < lowerLimit ∨ value > upperLimit then (.error (), [])
  else (.ok (), [.sendMovement value])

/-- One call of `Driver.play`, given what `recv` would return for its
state request: fetch the state; return silently if `done` is (now) set;
otherwise unpack `(x, y, angle)`, feed `angle` into `truck_angle` and
`x * 10` into `x_position`, run `compute()`, and command the crisp
`movement` output divided by 30.  `Except.ok (some v)` reports the
commanded value `v`; `Except.ok none` is the silent early return;
`Except.error` models a propagated exception. -/
def play (st : DriverState) (recv : RecvResult) :
    DriverState × Except Unit (Option ℚ) × List NetEvent :=
  let res := get_position_and_angle st recv
  let st1 := res.1
  if st1.done then (st1, .ok none, res.2.2)
  else
    match res.2.1 with
    | .error _ => (st1, .error (), res.2.2)
    | .ok none => (st1, .error (), res.2.2)
    | .ok (some (x, _, angle)) =>
      match compute angle (x * 10) with
      | none => (st1, .error (), res.2.2)
      | some out =>
        let mv := make_movement (out / 30)
        match mv.1 with
        | .error _ => (st1, .error (), res.2.2 ++ mv.2)
        | .ok _ => (st1, .ok (some (out / 30)), res.2.2 ++ mv.2)

/-- Degree sum of the first `n` terms of a membership-function family
at a point, used to state the fuzzy-partition property (§8). -/
def degreeSum (n : ℕ) (mf : ℕ → ℚ → ℚ) (u : ℚ) : ℚ :=
  ∑ i ∈ Finset.range n, mf i u

/-- The set of term indices (among the first `n`) whose degree at `u`
is nonzero. -/
def nonzeroTerms (n : ℕ) (mf : ℕ → ℚ → ℚ) (u : ℚ) : Finset ℕ :=
  (Finset.range n).filter (fun i => mf i u ≠ 0)

/-- The set of term indices (among the first `n`) whose degree at `u`
is exactly 1. -/
def fullTerms (n : ℕ) (mf : ℕ → ℚ → ℚ) (u : ℚ) : Finset ℕ :=
  (Finset.range n).filter (fun i => mf i u = 1)

theorem tri_nonneg {l p r x : ℚ} (hlp : l < p) (hpr : p < r) : 0 ≤ tri l p r x := by
  unfold tri
  split_ifs with h1 h2 h3
  · exact le_refl 0
  · exact div_nonneg (by linarith) (by linarith)
  · exact div_nonneg (by linarith) (by linarith)
  · exact le_refl 0

theorem leftShoulder_nonneg {p r x : ℚ} (hpr : p < r) : 0 ≤ leftShoulder p r x := by
  unfold leftShoulder
  split_ifs with h1 h2
  · exact zero_le_one
  · exact div_nonneg (by linarith) (by linarith)
  · exact le_refl 0

theorem rightShoulder_nonneg {l p x : ℚ} (hlp : l < p) : 0 ≤ rightShoulder l p x := by
  unfold rightShoulder
  split_ifs with h1 h2
  · exact le_refl 0
  · exact div_nonneg (by linarith) (by linarith)
  · exact zero_le_one

theorem automfPeak_lt {lo hi : ℚ} (h : lo < hi) {n : ℕ} (hn : 2 ≤ n) {i j : ℕ}
    (hij : i < j) : automfPeak lo hi n i < automfPeak lo hi n j := by
  unfold automfPeak
  have hd : 0 < (hi - lo) / ((n : ℚ) - 1) := by
    apply div_pos (by linarith)
    have : (2 : ℚ) ≤ (n : ℚ) := by exact_mod_cast hn
    linarith
  have hcast : (i : ℚ) < (j : ℚ) := by exact_mod_cast hij
  nlinarith

theorem movementMf_nonneg (i : ℕ) (u : ℚ) : 0 ≤ movementMf i u := by
  unfold movementMf automfTerm
  split_ifs with h1 h2
  · exact leftShoulder_nonneg (automfPeak_lt (by norm_num) (by norm_num) (by norm_num))
  · exact rightShoulder_nonneg (automfPeak_lt (by norm_num) (by norm_num) (by norm_num))
  · exact tri_nonneg (automfPeak_lt (by norm_num) (by norm_num) (by omega))
      (automfPeak_lt (by norm_num) (by norm_num) (by omega))

theorem angleMf_90_0 : angleMf 0 90 = 0 := by
  norm_num [angleMf, automfTerm, automfPeak, leftShoulder]
theorem angleMf_90_1 : angleMf 1 90 = 0 := by
  norm_num [angleMf, automfTerm, automfPeak, tri]
theorem angleMf_90_2 : angleMf 2 90 = 0 := by
  norm_num [angleMf, automfTerm, automfPeak, tri]
theorem angleMf_90_3 : angleMf 3 90 = 176/179 := by
  norm_num [angleMf, automfTerm, automfPeak, tri]
theorem angleMf_90_4 : angleMf 4 90 = 3/179 := by
  norm_num [angleMf, automfTerm, automfPeak, tri]
theorem angleMf_90_5 : angleMf 5 90 = 0 := by
  norm_num [angleMf, automfTerm, automfPeak, tri]
theorem angleMf_90_6 : angleMf 6 90 = 0 := by
  norm_num [angleMf, automfTerm, automfPeak, rightShoulder]
theorem xMf_5_0 : xMf 0 5 = 0 := by
  norm_num [xMf, automfTerm, automfPeak, leftShoulder]
theorem xMf_5_1 : xMf 1 5 = 0 := by
  norm_num [xMf, automfTerm, automfPeak, tri]
theorem xMf_5_2 : xMf 2 5 = 1 := by
  norm_num [xMf, automfTerm, automfPeak, tri]
theorem xMf_5_3 : xMf 3 5 = 0 := by
  norm_num [xMf, automfTerm, automfPeak, tri]
theorem xMf_5_4 : xMf 4 5 = 0 := by
  norm_num [xMf, automfTerm, automfPeak, rightShoulder]

set_option maxHeartbeats 1000000 in
theorem aggregated_90_5 (u : ℚ) :
    aggregated 90 5 u =
      max (min (movementMf 3 u) (176/179)) (min (movementMf 1 u) (3/179)) := by
  have hz : ∀ m : ℕ, min (movementMf m u) 0 = 0 :=
    fun m => min_eq_right (movementMf_nonneg m u)
  have hB : (0:ℚ) ≤ min (movementMf 1 u) (3/179) :=
    le_min (movementMf_nonneg 1 u) (by norm_num)
  have hAB : (0:ℚ) ≤ max (min (movementMf 3 u) (176/179)) (min (movementMf 1 u) (3/179)) :=
    le_trans (le_min (movementMf_nonneg 3 u) (by norm_num)) (le_max_left _ _)
  have hm01 : min (0:ℚ) 1 = 0 := min_eq_left zero_le_one
  have hmA : min (176/179 : ℚ) 1 = 176/179 := min_eq_left (by norm_num)
  have hmB : min (3/179 : ℚ) 1 = 3/179 := min_eq_left (by norm_num)
  have hmA0 : min (176/179 : ℚ) 0 = 0 := min_eq_right (by norm_num)
  have hmB0 : min (3/179 : ℚ) 0 = 0 := min_eq_right (by norm_num)
  simp only [aggregated, rules, List.map_cons, List.map_nil, ruleImplied, firing,
    angleMf_90_0, angleMf_90_1, angleMf_90_2, angleMf_90_3, angleMf_90_4,
    angleMf_90_5, angleMf_90_6, xMf_5_0, xMf_5_1, xMf_5_2, xMf_5_3, xMf_5_4]
  simp only [min_self, hm01, hmA, hmB, hmA0, hmB0, hz, List.foldr_cons,
    List.foldr_nil, max_self, max_eq_left hB, max_eq_right hAB]

theorem movementUniverse_eq : movementUniverse =
    [-30, -29, -28, -27, -26, -25, -24, -23, -22, -21, -20, -19, -18, -17, -16,
     -15, -14, -13, -12, -11, -10, -9, -8, -7, -6, -5, -4, -3, -2, -1, 0,
     1, 2, 3, 4, 5, 6, 7, 8, 9, 10, 11, 12, 13, 14, 15, 16, 17, 18, 19, 20,
     21, 22, 23, 24, 25, 26, 27, 28, 29, 30] := by
  have h : ((31 : ℤ) - (-30)).toNat = 61 := rfl
  simp only [movementUniverse, arange1, h, List.range_succ, List.map_append,
    List.map_cons, List.map_nil, List.append_assoc, List.nil_append,
    List.cons_append]
  norm_num

set_option maxHeartbeats 2000000 in
theorem aggArea_90_5 : aggArea 90 5 = 1844/179 := by
  unfold aggArea
  rw [movementUniverse_eq]
  simp only [List.map_cons, List.map_nil, aggregated_90_5]
  norm_num [movementMf, automfTerm, automfPeak, tri, min_def, max_def,
    List.sum_cons, List.sum_nil]

set_option maxHeartbeats 2000000 in
theorem aggMoment_90_5 : aggMoment 90 5 = -1140/179 := by
  unfold aggMoment
  rw [movementUniverse_eq]
  simp only [List.map_cons, List.map_nil, aggregated_90_5]
  norm_num [movementMf, automfTerm, automfPeak, tri, min_def, max_def,
    List.sum_cons, List.sum_nil]

theorem compute_90_5 : compute 90 5 = some (-285/461) := by
  unfold compute
  rw [aggArea_90_5, aggMoment_90_5]
  norm_num

theorem automfPeak_zero (lo hi : ℚ) (n : ℕ) : automfPeak lo hi n 0 = lo := by
  simp [automfPeak]

theorem automfPeak_succ_sub (lo hi : ℚ) (n : ℕ) (j : ℕ) :
    automfPeak lo hi n (j + 1) - automfPeak lo hi n j =
      (hi - lo) / ((n : ℚ) - 1) := by
  unfold automfPeak
  push_cast
  ring

theorem automfPeak_le {lo hi : ℚ} (h : lo < hi) {n : ℕ} (hn : 2 ≤ n) {i j : ℕ}
    (hij : i ≤ j) : automfPeak lo hi n i ≤ automfPeak lo hi n j := by
  rcases Nat.eq_or_lt_of_le hij with rfl | hlt
  · exact le_refl _
  · exact le_of_lt (automfPeak_lt h hn hlt)

theorem automfDelta_pos {lo hi : ℚ} (h : lo < hi) {n : ℕ} (hn : 2 ≤ n) :
    0 < (hi - lo) / ((n : ℚ) - 1) := by
  apply div_pos (by linarith)
  have : (2 : ℚ) ≤ (n : ℚ) := by exact_mod_cast hn
  linarith

theorem automfPeak_last {lo hi : ℚ} {n : ℕ} (hn : 2 ≤ n) :
    automfPeak lo hi n (n - 1) = hi := by
  unfold automfPeak
  have h1 : ((n - 1 : ℕ) : ℚ) = (n : ℚ) - 1 := by
    have : 1 ≤ n := by omega
    push_cast [this]
    ring
  have h2 : (n : ℚ) - 1 ≠ 0 := by
    have : (2 : ℚ) ≤ (n : ℚ) := by exact_mod_cast hn
    linarith
  rw [h1, mul_div_cancel₀ _ h2]
  ring

theorem automfTerm_nonneg {lo hi : ℚ} (h : lo < hi) {n : ℕ} (hn : 2 ≤ n)
    (i : ℕ) (x : ℚ) : 0 ≤ automfTerm lo hi n i x := by
  unfold automfTerm
  split_ifs with h1 h2
  · exact leftShoulder_nonneg (automfPeak_lt h hn (by norm_num))
  · exact rightShoulder_nonneg (automfPeak_lt h hn (by omega))
  · exact tri_nonneg (automfPeak_lt h hn (by omega)) (automfPeak_lt h hn (by omega))

theorem automf_exists_segment {lo hi : ℚ} (h : lo < hi) {n : ℕ} (hn : 2 ≤ n)
    {x : ℚ} (hx1 : lo ≤ x) (hx2 : x ≤ hi) :
    ∃ k, k + 1 ≤ n - 1 ∧ automfPeak lo hi n k ≤ x ∧ x ≤ automfPeak lo hi n (k + 1) := by
  have haux : ∀ t k, k + t = n - 1 → automfPeak lo hi n k ≤ x →
      ∃ j, j + 1 ≤ n - 1 ∧ automfPeak lo hi n j ≤ x ∧ x ≤ automfPeak lo hi n (j + 1) := by
    intro t
    induction t with
    | zero =>
      intro k hk hpk
      have hk1 : k = n - 1 := by omega
      subst hk1
      have hlast : automfPeak lo hi n (n - 1) = hi := automfPeak_last hn
      have hxeq : x = hi := le_antisymm hx2 (hlast ▸ hpk)
      have hle : automfPeak lo hi n (n - 2) ≤ automfPeak lo hi n (n - 1) :=
        automfPeak_le h hn (by omega)
      have he : n - 2 + 1 = n - 1 := by omega
      refine ⟨n - 2, by omega, ?_, ?_⟩
      · exact le_of_le_of_eq hle (hlast.trans hxeq.symm)
      · exact le_of_eq (hxeq.trans (hlast.symm.trans (congrArg (automfPeak lo hi n) he.symm)))
    | succ t ih =>
      intro k hk hpk
      rcases le_or_lt x (automfPeak lo hi n (k + 1)) with hle | hgt
      · exact ⟨k, by omega, hpk, hle⟩
      · exact ih (k + 1) (by omega) (le_of_lt hgt)
  apply haux (n - 1) 0 (by omega)
  rw [automfPeak_zero]
  exact hx1

theorem automfTerm_left_val {lo hi : ℚ} (h : lo < hi) {n : ℕ} (hn : 2 ≤ n)
    {k : ℕ} (hk : k + 1 ≤ n - 1) {x : ℚ} (hx1 : automfPeak lo hi n k ≤ x)
    (hx2 : x ≤ automfPeak lo hi n (k + 1)) :
    automfTerm lo hi n k x =
      (automfPeak lo hi n (k + 1) - x) / ((hi - lo) / ((n : ℚ) - 1)) := by
  have hd := automfDelta_pos h hn
  have hsub := automfPeak_succ_sub lo hi n k
  unfold automfTerm
  rcases Nat.eq_zero_or_pos k with rfl | hkpos
  · rw [if_pos rfl]
    unfold leftShoulder
    simp only [Nat.zero_add] at hk hx2 hsub ⊢
    rcases le_or_lt x (automfPeak lo hi n 0) with h1 | h1
    · have hxeq : x = automfPeak lo hi n 0 := le_antisymm h1 hx1
      rw [if_pos h1, hxeq, hsub, div_self (ne_of_gt hd)]
    · rw [if_neg (not_le.mpr h1), if_pos hx2, hsub]
  · have hk0 : k ≠ 0 := Nat.pos_iff_ne_zero.mp hkpos
    have hkn : k ≠ n - 1 := by omega
    rw [if_neg hk0, if_neg hkn]
    unfold tri
    have hlk : automfPeak lo hi n (k - 1) < automfPeak lo hi n k :=
      automfPeak_lt h hn (by omega)
    have hke : k - 1 + 1 = k := by omega
    have hsub2 := automfPeak_succ_sub lo hi n (k - 1)
    rw [hke] at hsub2
    rw [if_neg (not_le.mpr (lt_of_lt_of_le hlk hx1))]
    rcases le_or_lt x (automfPeak lo hi n k) with h2 | h2
    · have hxeq : x = automfPeak lo hi n k := le_antisymm h2 hx1
      rw [if_pos h2, hxeq, hsub2, hsub, div_self (ne_of_gt hd)]
    · rw [if_neg (not_le.mpr h2), if_pos hx2, hsub]

theorem automfTerm_right_val {lo hi : ℚ} (h : lo < hi) {n : ℕ} (hn : 2 ≤ n)
    {k : ℕ} (hk : k + 1 ≤ n - 1) {x : ℚ} (hx1 : automfPeak lo hi n k ≤ x)
    (hx2 : x ≤ automfPeak lo hi n (k + 1)) :
    automfTerm lo hi n (k + 1) x =
      (x - automfPeak lo hi n k) / ((hi - lo) / ((n : ℚ) - 1)) := by
  have hd := automfDelta_pos h hn
  have hsub := automfPeak_succ_sub lo hi n k
  unfold automfTerm
  rw [if_neg (by omega : ¬ k + 1 = 0)]
  rcases eq_or_ne (k + 1) (n - 1) with he | hne
  · rw [if_pos he]
    unfold rightShoulder
    have hn2 : n - 2 = k := by omega
    have hn1 : n - 1 = k + 1 := he.symm
    rw [hn2, hn1]
    rcases le_or_lt x (automfPeak lo hi n k) with h1 | h1
    · have hxeq : x = automfPeak lo hi n k := le_antisymm h1 hx1
      rw [if_pos h1, hxeq, sub_self, zero_div]
    · rw [if_neg (not_le.mpr h1), if_pos hx2, hsub]
  · rw [if_neg hne]
    unfold tri
    have hke : k + 1 - 1 = k := by omega
    rw [hke]
    rcases le_or_lt x (automfPeak lo hi n k) with h1 | h1
    · have hxeq : x = automfPeak lo hi n k := le_antisymm h1 hx1
      rw [if_pos h1, hxeq, sub_self, zero_div]
    · rw [if_neg (not_le.mpr h1), if_pos hx2, hsub]

theorem automfTerm_zero_outside {lo hi : ℚ} (h : lo < hi) {n : ℕ} (hn : 2 ≤ n)
    {k : ℕ} (hk : k + 1 ≤ n - 1) {x : ℚ} (hx1 : automfPeak lo hi n k ≤ x)
    (hx2 : x ≤ automfPeak lo hi n (k + 1)) {i : ℕ} (hin : i < n)
    (hik : i ≠ k) (hik1 : i ≠ k + 1) : automfTerm lo hi n i x = 0 := by
  unfold automfTerm
  rcases Nat.lt_or_ge i k with hlt | hge
  · -- the term lies entirely to the left of the segment: P (i+1) ≤ P k ≤ x
    have hi1k : i + 1 ≤ k := hlt
    have hup : automfPeak lo hi n (i + 1) ≤ x :=
      le_trans (automfPeak_le h hn hi1k) hx1
    rcases Nat.eq_zero_or_pos i with rfl | hipos
    · rw [if_pos rfl]
      unfold leftShoulder
      have h0 : automfPeak lo hi n 0 < automfPeak lo hi n 1 :=
        automfPeak_lt h hn (by norm_num)
      rw [if_neg (not_le.mpr (lt_of_lt_of_le h0 hup))]
      rcases le_or_lt x (automfPeak lo hi n 1) with h1 | h1
      · have hxeq : x = automfPeak lo hi n 1 := le_antisymm h1 hup
        rw [if_pos h1, hxeq, sub_self, zero_div]
      · rw [if_neg (not_le.mpr h1)]
    · have hi0 : i ≠ 0 := Nat.pos_iff_ne_zero.mp hipos
      have hin1 : i ≠ n - 1 := by omega
      rw [if_neg hi0, if_neg hin1]
      unfold tri
      have hlow : automfPeak lo hi n (i - 1) < automfPeak lo hi n i :=
        automfPeak_lt h hn (by omega)
      have hmid : automfPeak lo hi n i < automfPeak lo hi n (i + 1) :=
        automfPeak_lt h hn (by omega)
      rw [if_neg (not_le.mpr (lt_of_lt_of_le (lt_trans hlow hmid) hup))]
      rw [if_neg (not_le.mpr (lt_of_lt_of_le hmid hup))]
      rcases le_or_lt x (automfPeak lo hi n (i + 1)) with h1 | h1
      · have hxeq : x = automfPeak lo hi n (i + 1) := le_antisymm h1 hup
        rw [if_pos h1, hxeq, sub_self, zero_div]
      · rw [if_neg (not_le.mpr h1)]
  · -- the term lies entirely to the right of the segment: x ≤ P (k+1) ≤ P (i-1)
    have hi1 : k + 1 < i := by omega
    have hik1le : k + 1 ≤ i - 1 := by omega
    have hdown : x ≤ automfPeak lo hi n (i - 1) :=
      le_trans hx2 (automfPeak_le h hn hik1le)
    have hi0 : i ≠ 0 := by omega
    rw [if_neg hi0]
    rcases eq_or_ne i (n - 1) with he | hne
    · rw [if_pos he]
      unfold rightShoulder
      have hn2 : k + 1 ≤ n - 2 := by omega
      have hxn2 : x ≤ automfPeak lo hi n (n - 2) :=
        le_trans hx2 (automfPeak_le h hn hn2)
      rw [if_pos hxn2]
    · rw [if_neg hne]
      unfold tri
      rw [if_pos hdown]

theorem automfTerm_adjacent_sum {lo hi : ℚ} (h : lo < hi) {n : ℕ} (hn : 2 ≤ n)
    {k : ℕ} (hk : k + 1 ≤ n - 1) {x : ℚ} (hx1 : automfPeak lo hi n k ≤ x)
    (hx2 : x ≤ automfPeak lo hi n (k + 1)) :
    automfTerm lo hi n k x + automfTerm lo hi n (k + 1) x = 1 := by
  rw [automfTerm_left_val h hn hk hx1 hx2, automfTerm_right_val h hn hk hx1 hx2,
    div_add_div_same]
  have hsub := automfPeak_succ_sub lo hi n k
  have hd := automfDelta_pos h hn
  rw [show automfPeak lo hi n (k + 1) - x + (x - automfPeak lo hi n k) =
      automfPeak lo hi n (k + 1) - automfPeak lo hi n k by ring, hsub,
    div_self (ne_of_gt hd)]

theorem automf_partition_sum {lo hi : ℚ} (h : lo < hi) {n : ℕ} (hn : 2 ≤ n)
    {x : ℚ} (hx1 : lo ≤ x) (hx2 : x ≤ hi) :
    degreeSum n (automfTerm lo hi n) x = 1 := by
  obtain ⟨k, hk, hs1, hs2⟩ := automf_exists_segment h hn hx1 hx2
  unfold degreeSum
  have hsub : ({k, k + 1} : Finset ℕ) ⊆ Finset.range n := by
    intro i hi
    simp only [Finset.mem_insert, Finset.mem_singleton] at hi
    rcases hi with rfl | rfl <;> simp only [Finset.mem_range] <;> omega
  rw [← Finset.sum_subset hsub]
  · rw [Finset.sum_pair (by omega : k ≠ k + 1)]
    exact automfTerm_adjacent_sum h hn hk hs1 hs2
  · intro i hin hnotin
    simp only [Finset.mem_insert, Finset.mem_singleton, not_or] at hnotin
    exact automfTerm_zero_outside h hn hk hs1 hs2 (Finset.mem_range.mp hin)
      hnotin.1 hnotin.2

theorem automf_nonzero_card {lo hi : ℚ} (h : lo < hi) {n : ℕ} (hn : 2 ≤ n)
    {x : ℚ} (hx1 : lo ≤ x) (hx2 : x ≤ hi) :
    (nonzeroTerms n (automfTerm lo hi n) x).card ≤ 2 := by
  obtain ⟨k, hk, hs1, hs2⟩ := automf_exists_segment h hn hx1 hx2
  have hsub : nonzeroTerms n (automfTerm lo hi n) x ⊆ {k, k + 1} := by
    intro i hi
    simp only [nonzeroTerms, Finset.mem_filter, Finset.mem_range] at hi
    simp only [Finset.mem_insert, Finset.mem_singleton]
    by_contra hcon
    push_neg at hcon
    exact hi.2 (automfTerm_zero_outside h hn hk hs1 hs2 hi.1 hcon.1 hcon.2)
  calc (nonzeroTerms n (automfTerm lo hi n) x).card
      ≤ ({k, k + 1} : Finset ℕ).card := Finset.card_le_card hsub
    _ ≤ 2 := by
        refine le_trans (Finset.card_insert_le _ _) ?_
        simp

theorem automfTerm_peak_one {lo hi : ℚ} (h : lo < hi) {n : ℕ} (hn : 2 ≤ n)
    {k : ℕ} (hkn : k ≤ n - 1) :
    automfTerm lo hi n k (automfPeak lo hi n k) = 1 := by
  rcases eq_or_ne k (n - 1) with he | hne
  · unfold automfTerm
    rw [if_neg (by omega : ¬ k = 0), if_pos he]
    unfold rightShoulder
    have hlt : automfPeak lo hi n (n - 2) < automfPeak lo hi n (n - 1) :=
      automfPeak_lt h hn (by omega)
    have hsub := automfPeak_succ_sub lo hi n (n - 2)
    have he2 : n - 2 + 1 = n - 1 := by omega
    rw [he2] at hsub
    rw [he, if_neg (not_le.mpr hlt), if_pos (le_refl _), hsub,
      div_self (ne_of_gt (automfDelta_pos h hn))]
  · have hk1 : k + 1 ≤ n - 1 := by omega
    have hpk1 : automfPeak lo hi n k ≤ automfPeak lo hi n (k + 1) :=
      automfPeak_le h hn (by omega)
    rw [automfTerm_left_val h hn hk1 (le_refl _) hpk1, automfPeak_succ_sub,
      div_self (ne_of_gt (automfDelta_pos h hn))]

theorem automf_coverage {lo hi : ℚ} (h : lo < hi) {n : ℕ} (hn : 2 ≤ n)
    {x : ℚ} (hx1 : lo ≤ x) (hx2 : x ≤ hi) :
    ∃ i, i < n ∧ 0 < automfTerm lo hi n i x := by
  obtain ⟨k, hk, hs1, hs2⟩ := automf_exists_segment h hn hx1 hx2
  rcases lt_or_eq_of_le (automfTerm_nonneg h hn k x) with hpos | hzero
  · exact ⟨k, by omega, hpos⟩
  · refine ⟨k + 1, by omega, ?_⟩
    have hsum := automfTerm_adjacent_sum h hn hk hs1 hs2
    rw [← hzero] at hsum
    rw [zero_add] at hsum
    rw [hsum]
    norm_num

theorem automfTerm_lo_eq_zero {lo hi : ℚ} (h : lo < hi) {n : ℕ} (hn : 2 ≤ n)
    {i : ℕ} (hin : i < n) (hi0 : i ≠ 0) : automfTerm lo hi n i lo = 0 := by
  have hp0 : automfPeak lo hi n 0 = lo := automfPeak_zero lo hi n
  have hk : 0 + 1 ≤ n - 1 := by omega
  have hs1 : automfPeak lo hi n 0 ≤ lo := le_of_eq hp0
  have hs2 : lo ≤ automfPeak lo hi n (0 + 1) :=
    le_trans (le_of_eq hp0.symm) (@automfPeak_le lo hi h n hn 0 (0 + 1) (by omega))
  rcases eq_or_ne i 1 with rfl | hi1
  · rw [show (1 : ℕ) = 0 + 1 from rfl, automfTerm_right_val h hn hk hs1 hs2,
      hp0, sub_self, zero_div]
  · exact automfTerm_zero_outside h hn hk hs1 hs2 hin hi0 hi1

theorem automfTerm_hi_eq_zero {lo hi : ℚ} (h : lo < hi) {n : ℕ} (hn : 2 ≤ n)
    {i : ℕ} (hin : i < n) (hi0 : i ≠ n - 1) : automfTerm lo hi n i hi = 0 := by
  have hplast : automfPeak lo hi n (n - 1) = hi := automfPeak_last hn
  have he : n - 2 + 1 = n - 1 := by omega
  have hk : n - 2 + 1 ≤ n - 1 := by omega
  have hs1 : automfPeak lo hi n (n - 2) ≤ hi :=
    le_trans (@automfPeak_le lo hi h n hn (n - 2) (n - 1) (by omega)) (le_of_eq hplast)
  have hs2 : hi ≤ automfPeak lo hi n (n - 2 + 1) := by
    rw [he, hplast]
  rcases eq_or_ne i (n - 2) with rfl | hi2
  · rw [automfTerm_left_val h hn hk hs1 hs2, he, hplast, sub_self, zero_div]
  · refine automfTerm_zero_outside h hn hk hs1 hs2 hin hi2 ?_
    omega

theorem automf_full_lo {lo hi : ℚ} (h : lo < hi) {n : ℕ} (hn : 2 ≤ n) :
    fullTerms n (automfTerm lo hi n) lo = {0} := by
  ext i
  simp only [fullTerms, Finset.mem_filter, Finset.mem_range, Finset.mem_singleton]
  constructor
  · rintro ⟨hin, hval⟩
    by_contra hi0
    rw [automfTerm_lo_eq_zero h hn hin hi0] at hval
    exact absurd hval (by norm_num)
  · rintro rfl
    refine ⟨by omega, ?_⟩
    have := automfTerm_peak_one h hn (show 0 ≤ n - 1 by omega)
    rwa [automfPeak_zero] at this

theorem automf_full_hi {lo hi : ℚ} (h : lo < hi) {n : ℕ} (hn : 2 ≤ n) :
    fullTerms n (automfTerm lo hi n) hi = {n - 1} := by
  ext i
  simp only [fullTerms, Finset.mem_filter, Finset.mem_range, Finset.mem_singleton]
  constructor
  · rintro ⟨hin, hval⟩
    by_contra hi0
    rw [automfTerm_hi_eq_zero h hn hin hi0] at hval
    exact absurd hval (by norm_num)
  · rintro rfl
    refine ⟨by omega, ?_⟩
    have := automfTerm_peak_one h hn (le_refl (n - 1))
    rwa [automfPeak_last hn] at this

theorem mem_arange1 {a b : ℤ} {u : ℚ} (hu : u ∈ arange1 a b) :
    (a : ℚ) ≤ u ∧ u ≤ (b : ℚ) - 1 := by
  unfold arange1 at hu
  obtain ⟨k, hk, rfl⟩ := List.mem_map.mp hu
  rw [List.mem_range] at hk
  have hk2 : (k : ℤ) ≤ b - a - 1 := by omega
  constructor
  · have : (0 : ℚ) ≤ (k : ℚ) := Nat.cast_nonneg k
    linarith
  · have : ((k : ℤ) : ℚ) ≤ ((b - a - 1 : ℤ) : ℚ) := by exact_mod_cast hk2
    push_cast at this ⊢
    linarith

theorem arange1_mem {a b k : ℤ} (h1 : a ≤ k) (h2 : k < b) :
    (k : ℚ) ∈ arange1 a b := by
  unfold arange1
  rw [List.mem_map]
  refine ⟨(k - a).toNat, ?_, ?_⟩
  · rw [List.mem_range]
    omega
  · have h3 : ((k - a).toNat : ℤ) = k - a := by omega
    have h4 : (((k - a).toNat : ℕ) : ℚ) = ((k - a : ℤ) : ℚ) := by
      exact_mod_cast h3
    rw [h4]
    push_cast
    ring

theorem foldr_max_le_of_mem {l : List ℚ} {a : ℚ} (h : a ∈ l) (b : ℚ) :
    a ≤ l.foldr max b := by
  induction l with
  | nil => cases h
  | cons c cs ih =>
    rcases List.mem_cons.mp h with rfl | hmem
    · exact le_max_left _ _
    · exact le_trans (ih hmem) (le_max_right _ _)

theorem foldr_max_base (l : List ℚ) (b : ℚ) : b ≤ l.foldr max b := by
  induction l with
  | nil => exact le_refl b
  | cons c cs ih => exact le_trans ih (le_max_right _ _)

theorem aggregated_nonneg (angle x u : ℚ) : 0 ≤ aggregated angle x u :=
  foldr_max_base _ 0

theorem ruleImplied_le_aggregated {r : FRule} (hr : r ∈ rules) (angle x u : ℚ) :
    ruleImplied angle x r u ≤ aggregated angle x u :=
  foldr_max_le_of_mem (List.mem_map_of_mem _ hr) 0

theorem mem_movementUniverse_bounds {u : ℚ} (hu : u ∈ movementUniverse) :
    -30 ≤ u ∧ u ≤ 30 := by
  have := mem_arange1 hu
  push_cast at this
  constructor <;> linarith [this.1, this.2]

theorem movementMf_peak_mem :
    ∀ m, m < 7 → automfPeak (-30) 30 7 m ∈ movementUniverse := by
  intro m hm
  have hval : automfPeak (-30) 30 7 m = ((-30 + 10 * m : ℤ) : ℚ) := by
    unfold automfPeak
    push_cast
    ring
  rw [hval]
  exact arange1_mem (by omega) (by omega)

theorem rules_complete :
    ∀ i, i < 7 → ∀ j, j < 5 → ∃ m, m < 7 ∧ FRule.mk i j m ∈ rules := by decide

theorem angle_coverage {angle : ℚ} (h1 : 0 ≤ angle) (h2 : angle ≤ 179) :
    ∃ i, i < 7 ∧ 0 < angleMf i angle :=
  automf_coverage (by norm_num) (by norm_num) h1 h2

theorem x_coverage {x : ℚ} (h3 : 0 ≤ x) (h4 : x ≤ 10) :
    ∃ j, j < 5 ∧ 0 < xMf j x :=
  automf_coverage (by norm_num) (by norm_num) h3 h4

theorem exists_positive_firing {angle x : ℚ} (h1 : 0 ≤ angle) (h2 : angle ≤ 179)
    (h3 : 0 ≤ x) (h4 : x ≤ 10) : ∃ r ∈ rules, 0 < firing angle x r := by
  obtain ⟨i, hi, hia⟩ := angle_coverage h1 h2
  obtain ⟨j, hj, hjx⟩ := x_coverage h3 h4
  obtain ⟨m, _, hmem⟩ := rules_complete i hi j hj
  exact ⟨⟨i, j, m⟩, hmem, lt_min hia hjx⟩

theorem aggArea_pos {angle x : ℚ} (h1 : 0 ≤ angle) (h2 : angle ≤ 179)
    (h3 : 0 ≤ x) (h4 : x ≤ 10) : 0 < aggArea angle x := by
  obtain ⟨i, hi, hia⟩ := angle_coverage h1 h2
  obtain ⟨j, hj, hjx⟩ := x_coverage h3 h4
  obtain ⟨m, hm, hmem⟩ := rules_complete i hi j hj
  have hp1 : movementMf m (automfPeak (-30) 30 7 m) = 1 :=
    automfTerm_peak_one (by norm_num) (by norm_num) (by omega)
  have himp : 0 < ruleImplied angle x ⟨i, j, m⟩ (automfPeak (-30) 30 7 m) := by
    unfold ruleImplied
    simp only [hp1]
    exact lt_min one_pos (lt_min hia hjx)
  have hagg : 0 < aggregated angle x (automfPeak (-30) 30 7 m) :=
    lt_of_lt_of_le himp (ruleImplied_le_aggregated hmem angle x _)
  have hps : automfPeak (-30) 30 7 m ∈ movementUniverse := movementMf_peak_mem m hm
  refine lt_of_lt_of_le hagg ?_
  apply List.single_le_sum
  · intro y hy
    obtain ⟨u, _, rfl⟩ := List.mem_map.mp hy
    exact aggregated_nonneg angle x u
  · exact List.mem_map_of_mem _ hps

theorem list_sum_map_mul_left (l : List ℚ) (f : ℚ → ℚ) (c : ℚ) :
    (l.map (fun u => c * f u)).sum = c * (l.map f).sum := by
  induction l with
  | nil => simp
  | cons a as ih => simp [ih, mul_add]

theorem aggMoment_bounds (angle x : ℚ) :
    -30 * aggArea angle x ≤ aggMoment angle x ∧
      aggMoment angle x ≤ 30 * aggArea angle x := by
  unfold aggMoment aggArea
  constructor
  · rw [← list_sum_map_mul_left movementUniverse (aggregated angle x) (-30)]
    apply List.sum_le_sum
    intro u hu
    exact mul_le_mul_of_nonneg_right (mem_movementUniverse_bounds hu).1
      (aggregated_nonneg angle x u)
  · rw [← list_sum_map_mul_left movementUniverse (aggregated angle x) 30]
    apply List.sum_le_sum
    intro u hu
    exact mul_le_mul_of_nonneg_right (mem_movementUniverse_bounds hu).2
      (aggregated_nonneg angle x u)

theorem compute_in_range {angle x : ℚ} (h1 : 0 ≤ angle) (h2 : angle ≤ 179)
    (h3 : 0 ≤ x) (h4 : x ≤ 10) :
    ∃ out, compute angle x = some out ∧ -30 ≤ out ∧ out ≤ 30 := by
  have hS := aggArea_pos h1 h2 h3 h4
  have hM := aggMoment_bounds angle x
  refine ⟨aggMoment angle x / aggArea angle x, ?_, ?_, ?_⟩
  · unfold compute
    rw [if_neg (ne_of_gt hS)]
  · rw [le_div_iff₀ hS]
    linarith [hM.1]
  · rw [div_le_iff₀ hS]
    linarith [hM.2]

theorem movementUniverse_moment_zero {d : ℚ → ℚ} (hsym : ∀ u, d (-u) = d u) :
    (movementUniverse.map (fun u => u * d u)).sum = 0 := by
  have h1 : movementUniverse =
      (List.range 61).map (fun k : ℕ => ((-30 : ℤ) : ℚ) + (k : ℚ)) := rfl
  rw [h1, List.map_map]
  have h2 : ((List.range 61).map
      ((fun u => u * d u) ∘ (fun k : ℕ => ((-30 : ℤ) : ℚ) + (k : ℚ)))).sum =
      ∑ i ∈ Finset.range 61,
        (((-30 : ℤ) : ℚ) + (i : ℚ)) * d (((-30 : ℤ) : ℚ) + (i : ℚ)) := rfl
  rw [h2]
  have h3 := Finset.sum_range_reflect
    (fun i : ℕ => (((-30 : ℤ) : ℚ) + (i : ℚ)) * d (((-30 : ℤ) : ℚ) + (i : ℚ))) 61
  have h4 : ∀ j ∈ Finset.range 61,
      (((-30 : ℤ) : ℚ) + ((61 - 1 - j : ℕ) : ℚ)) *
        d (((-30 : ℤ) : ℚ) + ((61 - 1 - j : ℕ) : ℚ)) =
      -((((-30 : ℤ) : ℚ) + (j : ℚ)) * d (((-30 : ℤ) : ℚ) + (j : ℚ))) := by
    intro j hj
    rw [Finset.mem_range] at hj
    have hc : ((61 - 1 - j : ℕ) : ℚ) = 60 - (j : ℚ) := by
      have he : (61 - 1 - j : ℕ) = 60 - j := by omega
      have hle : j ≤ 60 := by omega
      rw [he]
      push_cast [hle]
      ring
    have harg : ((-30 : ℤ) : ℚ) + (60 - (j : ℚ)) =
        -(((-30 : ℤ) : ℚ) + (j : ℚ)) := by
      push_cast
      ring
    rw [hc, harg, hsym (((-30 : ℤ) : ℚ) + (j : ℚ))]
    ring
  rw [Finset.sum_congr rfl h4] at h3
  rw [Finset.sum_neg_distrib] at h3
  linarith

theorem pySplit_no_sep {sep : Char} {cs : List Char} (h : ∀ c ∈ cs, c ≠ sep) :
    pySplit sep cs = [cs] := by
  induction cs with
  | nil => rfl
  | cons c rest ih =>
    rw [pySplit, if_neg (h c (List.mem_cons_self c rest))]
    rw [ih (fun ch hch => h ch (List.mem_cons_of_mem _ hch))]

theorem pySplit_append_sep {sep : Char} {a rest : List Char}
    (h : ∀ c ∈ a, c ≠ sep) :
    pySplit sep (a ++ sep :: rest) = a :: pySplit sep rest := by
  induction a with
  | nil =>
    simp only [List.nil_append]
    rw [pySplit, if_pos rfl]
  | cons c as ih =>
    simp only [List.cons_append]
    rw [pySplit, if_neg (h c (List.mem_cons_self c as))]
    rw [ih (fun ch hch => h ch (List.mem_cons_of_mem _ hch))]

theorem parseState_triple {a b c : List Char} {qa qb qc : ℚ}
    (ha : parseDecimal a = some qa) (hb : parseDecimal b = some qb)
    (hc : parseDecimal c = some qc)
    (hta : ∀ ch ∈ a, ch ≠ '\t') (htb : ∀ ch ∈ b, ch ≠ '\t')
    (htc : ∀ ch ∈ c, ch ≠ '\t') :
    parseState (a ++ '\t' :: (b ++ '\t' :: c)) = some (qa, qb, qc) := by
  unfold parseState
  rw [pySplit_append_sep hta, pySplit_append_sep htb, pySplit_no_sep htc]
  simp only [ha, hb, hc]

theorem play_fst (st : DriverState) (recv : RecvResult) :
    (play st recv).1 = (get_position_and_angle st recv).1 := by
  simp only [play]
  split
  · rfl
  · split
    · rfl
    · rfl
    · split
      · rfl
      · split
        · rfl
        · rfl

theorem get_done_formula (st : DriverState) (recv : RecvResult) :
    (get_position_and_angle st recv).1.done =
      (st.done || decide (recv = RecvResult.closed)) := by
  rcases st with ⟨done⟩
  cases done
  · cases recv with
    | closed => simp [get_position_and_angle]
    | data payload =>
      cases hp : parseState payload <;>
        simp [get_position_and_angle, hp]
  · cases recv <;> simp [get_position_and_angle]

/-- C2: `make_movement value` raises exactly when `value` is outside
`[-1, 1]`; when it raises nothing is sent, and for every in-range value
the steering command is transmitted. -/
theorem claim_C2 : ∀ v : ℚ,
    ((make_movement v).1 = Except.error () ↔ (v < -1 ∨ v > 1)) ∧
    ((make_movement v).1 = Except.error () → (make_movement v).2 = []) ∧
    (-1 ≤ v → v ≤ 1 → (make_movement v).2 = [NetEvent.sendMovement v]) := by
  intro v
  unfold make_movement lowerLimit upperLimit
  split_ifs with h
  · refine ⟨⟨fun _ => h, fun _ => rfl⟩, fun _ => rfl, fun h1 h2 => ?_⟩
    rcases h with h | h <;> linarith
  · refine ⟨⟨fun hco => absurd hco (by simp), fun hco => absurd hco h⟩,
      fun hco => absurd hco (by simp), fun _ _ => rfl⟩

theorem claim_C2_witness :
    ((make_movement 2).1 = Except.error () ↔ ((2:ℚ) < -1 ∨ (2:ℚ) > 1)) ∧
    (make_movement 0).2 = [NetEvent.sendMovement 0] :=
  ⟨(claim_C2 2).1, (claim_C2 0).2.2 (by norm_num) (by norm_num)⟩

/-- C3: a zero-length read sets `done` and returns no value; once `done`
is set, `get_position_and_angle` returns no value and sends nothing, and
`play` does nothing and issues no command. -/
theorem claim_C3 :
    (∀ st : DriverState, st.done = false →
      get_position_and_angle st RecvResult.closed =
        (⟨true⟩, Except.ok none, [NetEvent.sendStateRequest])) ∧
    (∀ (st : DriverState) (recv : RecvResult), st.done = true →
      get_position_and_angle st recv = (st, Except.ok none, [])) ∧
    (∀ (st : DriverState) (recv : RecvResult), st.done = true →
      play st recv = (st, Except.ok none, [])) := by
  refine ⟨fun st h => ?_, fun st recv h => ?_, fun st recv h => ?_⟩
  · simp [get_position_and_angle, h]
  · simp [get_position_and_angle, h]
  · simp [play, get_position_and_angle, h]

theorem claim_C3_witness :
    get_position_and_angle ⟨false⟩ RecvResult.closed =
      (⟨true⟩, Except.ok none, [NetEvent.sendStateRequest]) ∧
    get_position_and_angle ⟨true⟩ (RecvResult.data []) =
      (⟨true⟩, Except.ok none, []) ∧
    play ⟨true⟩ RecvResult.closed = (⟨true⟩, Except.ok none, []) :=
  ⟨claim_C3.1 ⟨false⟩ rfl, claim_C3.2.1 ⟨true⟩ (RecvResult.data []) rfl,
    claim_C3.2.2 ⟨true⟩ RecvResult.closed rfl⟩

/-- C10: `done` starts out `false` and is monotone — after any call of
`get_position_and_angle` or `play` it equals the old flag OR-ed with
"this call got a zero-length read", so the only assignment turns it
`true` and nothing ever resets it. -/
theorem claim_C10 :
    initialDriver.done = false ∧
    ∀ (st : DriverState) (recv : RecvResult),
      ((get_position_and_angle st recv).1.done =
        (st.done || decide (recv = RecvResult.closed))) ∧
      ((play st recv).1.done =
        (st.done || decide (recv = RecvResult.closed))) := by
  refine ⟨rfl, fun st recv => ⟨get_done_formula st recv, ?_⟩⟩
  rw [play_fst]
  exact get_done_formula st recv

/-- C8 (amended): any aggregated degree array over the `movement`
universe that is symmetric about the domain midpoint 0 and has nonzero
total degree defuzzifies to exactly 0 by centroid. -/
theorem claim_C8 : ∀ d : ℚ → ℚ, (∀ u, d (-u) = d u) →
    (movementUniverse.map d).sum ≠ 0 → defuzzCentroid d = some 0 := by
  intro d hsym hsum
  unfold defuzzCentroid
  rw [if_neg hsum, movementUniverse_moment_zero hsym, zero_div]

/-- C8, counterexample to the claim as stated: the all-zero array is
symmetric about the midpoint, but it does not defuzzify to 0 — centroid
defuzzification has no value on it (the no-rule-fired case). -/
theorem claim_C8_counterexample :
    ¬ ∀ d : ℚ → ℚ, (∀ u, d (-u) = d u) → defuzzCentroid d = some 0 := by
  intro hclaim
  have h := hclaim (fun _ => 0) (fun _ => rfl)
  have hz : ((movementUniverse.map (fun _ => (0:ℚ))).sum = 0) := by simp
  unfold defuzzCentroid at h
  rw [if_pos hz] at h
  exact Option.noConfusion h

theorem claim_C8_witness :
    defuzzCentroid (fun u : ℚ => if u = 0 then 1 else 0) = some 0 :=
  claim_C8 _ (fun u => by simp [neg_eq_zero])
    (by rw [movementUniverse_eq]; norm_num)

theorem char_digit_facts :
    ('0'.isDigit = true) ∧ ('3'.isDigit = true) ∧ ('5'.isDigit = true) ∧
    ('9'.isDigit = true) ∧ ('.'.isDigit = false) := by decide

theorem char_toNat_facts :
    ('0'.toNat = 48) ∧ ('3'.toNat = 51) ∧ ('5'.toNat = 53) ∧ ('9'.toNat = 57) := by
  decide

theorem parse_half : parseDecimal ['0', '.', '5'] = some (1/2) := by
  simp +decide only [parseDecimal, parseUnsigned, digitsToNat, List.takeWhile,
    List.dropWhile, List.foldl, List.isEmpty, List.all, List.length,
    char_digit_facts.1, char_digit_facts.2.1, char_digit_facts.2.2.1,
    char_digit_facts.2.2.2.1, char_digit_facts.2.2.2.2, char_toNat_facts.1,
    char_toNat_facts.2.1, char_toNat_facts.2.2.1, char_toNat_facts.2.2.2]
  norm_num

theorem parse_threeTenths : parseDecimal ['0', '.', '3'] = some (3/10) := by
  simp +decide only [parseDecimal, parseUnsigned, digitsToNat, List.takeWhile,
    List.dropWhile, List.foldl, List.isEmpty, List.all, List.length,
    char_digit_facts.1, char_digit_facts.2.1, char_digit_facts.2.2.1,
    char_digit_facts.2.2.2.1, char_digit_facts.2.2.2.2, char_toNat_facts.1,
    char_toNat_facts.2.1, char_toNat_facts.2.2.1, char_toNat_facts.2.2.2]
  norm_num

theorem parse_ninety : parseDecimal ['9', '0', '.', '0'] = some 90 := by
  simp +decide only [parseDecimal, parseUnsigned, digitsToNat, List.takeWhile,
    List.dropWhile, List.foldl, List.isEmpty, List.all, List.length,
    char_digit_facts.1, char_digit_facts.2.1, char_digit_facts.2.2.1,
    char_digit_facts.2.2.2.1, char_digit_facts.2.2.2.2, char_toNat_facts.1,
    char_toNat_facts.2.1, char_toNat_facts.2.2.1, char_toNat_facts.2.2.2]
  norm_num

theorem play_data_commands {payload : List Char} {x y angle out : ℚ}
    (hp : parseState payload = some (x, y, angle))
    (hc : compute angle (x * 10) = some out)
    (hlo : -30 ≤ out) (hhi : out ≤ 30) :
    play ⟨false⟩ (RecvResult.data payload) =
      (⟨false⟩, Except.ok (some (out / 30)),
        [NetEvent.sendStateRequest, NetEvent.sendMovement (out / 30)]) := by
  have hget : get_position_and_angle ⟨false⟩ (RecvResult.data payload) =
      (⟨false⟩, Except.ok (some (x, y, angle)), [NetEvent.sendStateRequest]) := by
    simp [get_position_and_angle, hp]
  have hmv : make_movement (out / 30) =
      (Except.ok (), [NetEvent.sendMovement (out / 30)]) := by
    unfold make_movement
    rw [if_neg]
    push_neg
    constructor
    · unfold lowerLimit
      rw [le_div_iff₀ (by norm_num : (0:ℚ) < 30)]
      linarith
    · unfold upperLimit
      rw [div_le_iff₀ (by norm_num : (0:ℚ) < 30)]
      linarith
  simp only [play, hget, hc, hmv, List.cons_append, List.nil_append,
    Bool.false_eq_true, if_false]

/-- C4: a reply that is a tab-separated triple of decimal numerals is
parsed by `get_position_and_angle` into the triple of their values, in
order, after the single state request is sent. -/
theorem claim_C4 : ∀ (a b c : List Char) (qa qb qc : ℚ) (st : DriverState),
    st.done = false →
    parseDecimal a = some qa → parseDecimal b = some qb →
    parseDecimal c = some qc →
    (∀ ch ∈ a, ch ≠ '\t') → (∀ ch ∈ b, ch ≠ '\t') → (∀ ch ∈ c, ch ≠ '\t') →
    get_position_and_angle st
        (RecvResult.data (a ++ '\t' :: (b ++ '\t' :: c))) =
      (st, Except.ok (some (qa, qb, qc)), [NetEvent.sendStateRequest]) := by
  intro a b c qa qb qc st hst ha hb hc hta htb htc
  simp [get_position_and_angle, hst, parseState_triple ha hb hc hta htb htc]

theorem claim_C4_witness :
    get_position_and_angle ⟨false⟩ (RecvResult.data
        (['0', '.', '5'] ++ '\t' :: (['0', '.', '3'] ++ '\t' ::
          ['9', '0', '.', '0']))) =
      (⟨false⟩, Except.ok (some (1/2, 3/10, 90)), [NetEvent.sendStateRequest]) :=
  claim_C4 _ _ _ _ _ _ ⟨false⟩ rfl parse_half parse_threeTenths parse_ninety
    (by decide) (by decide) (by decide)

/-- C5: the `x_position` universe spans `[0, 10]`; `play` feeds the
received normalized position times 10 into the controller and commands
the defuzzified `movement` output divided by 30, which lands in
`[-1, 1]` whenever the output is in the consequent domain `[-30, 30]`. -/
theorem claim_C5 :
    ((0:ℚ) ∈ xUniverse ∧ (10:ℚ) ∈ xUniverse ∧
      (∀ u ∈ xUniverse, 0 ≤ u ∧ u ≤ 10)) ∧
    (∀ (payload : List Char) (x y angle out : ℚ),
      parseState payload = some (x, y, angle) →
      compute angle (x * 10) = some out → -30 ≤ out → out ≤ 30 →
      play ⟨false⟩ (RecvResult.data payload) =
        (⟨false⟩, Except.ok (some (out / 30)),
          [NetEvent.sendStateRequest, NetEvent.sendMovement (out / 30)]) ∧
        -1 ≤ out / 30 ∧ out / 30 ≤ 1) := by
  refine ⟨⟨?_, ?_, fun u hu => ?_⟩,
    fun payload x y angle out hp hc hlo hhi => ⟨play_data_commands hp hc hlo hhi, ?_, ?_⟩⟩
  · simpa [xUniverse] using @arange1_mem 0 11 0 (by norm_num) (by norm_num)
  · simpa [xUniverse] using @arange1_mem 0 11 10 (by norm_num) (by norm_num)
  · have hb := mem_arange1 hu
    push_cast at hb
    exact ⟨hb.1, by linarith [hb.2]⟩
  · rw [le_div_iff₀ (by norm_num : (0:ℚ) < 30)]
    linarith
  · rw [div_le_iff₀ (by norm_num : (0:ℚ) < 30)]
    linarith

theorem claim_C5_witness :
    play ⟨false⟩ (RecvResult.data
        (['0', '.', '5'] ++ '\t' :: (['0', '.', '3'] ++ '\t' ::
          ['9', '0', '.', '0']))) =
      (⟨false⟩, Except.ok (some ((-285/461 : ℚ) / 30)),
        [NetEvent.sendStateRequest, NetEvent.sendMovement ((-285/461 : ℚ) / 30)]) ∧
    -1 ≤ (-285/461 : ℚ) / 30 ∧ (-285/461 : ℚ) / 30 ≤ 1 :=
  claim_C5.2 _ (1/2) (3/10) 90 (-285/461)
    (parseState_triple parse_half parse_threeTenths parse_ninety
      (by decide) (by decide) (by decide))
    (by rw [show (1/2 : ℚ) * 10 = 5 by norm_num]; exact compute_90_5)
    (by norm_num) (by norm_num)

/-- C6: the `truck_angle` universe contains the samples `0 … 179` only —
contrary to the claim, the endpoint 180 is **not** a sample, because
`np.arange(0, 180, 1)` excludes its stop value; the crisp angle itself
is fed into the controller unmodified by `play`. -/
theorem claim_C6 :
    (0:ℚ) ∈ angleUniverse ∧ (179:ℚ) ∈ angleUniverse ∧
    (180:ℚ) ∉ angleUniverse ∧
    (∀ u ∈ angleUniverse, 0 ≤ u ∧ u ≤ 179) ∧
    (∀ (payload : List Char) (x y angle out : ℚ),
      parseState payload = some (x, y, angle) →
      compute angle (x * 10) = some out → -30 ≤ out → out ≤ 30 →
      play ⟨false⟩ (RecvResult.data payload) =
        (⟨false⟩, Except.ok (some (out / 30)),
          [NetEvent.sendStateRequest, NetEvent.sendMovement (out / 30)])) := by
  refine ⟨?_, ?_, fun hmem => ?_, fun u hu => ?_,
    fun payload x y angle out hp hc hlo hhi => play_data_commands hp hc hlo hhi⟩
  · simpa [angleUniverse] using @arange1_mem 0 180 0 (by norm_num) (by norm_num)
  · simpa [angleUniverse] using @arange1_mem 0 180 179 (by norm_num) (by norm_num)
  · have hb := mem_arange1 hmem
    push_cast at hb
    linarith [hb.2]
  · have hb := mem_arange1 hu
    push_cast at hb
    exact ⟨hb.1, by linarith [hb.2]⟩

theorem claim_C6_witness :
    0 ≤ (90:ℚ) ∧ (90:ℚ) ≤ 179 :=
  claim_C6.2.2.2.1 90
    (by simpa [angleUniverse] using @arange1_mem 0 180 90 (by norm_num) (by norm_num))

/-- C7: each `automf`-generated variable is a fuzzy partition — at every
universe sample the seven (resp. five) term degrees sum to exactly 1
and at most two terms are nonzero, and at each domain endpoint exactly
one term has degree 1. -/
theorem claim_C7 :
    (∀ u ∈ angleUniverse,
      degreeSum 7 angleMf u = 1 ∧ (nonzeroTerms 7 angleMf u).card ≤ 2) ∧
    ((fullTerms 7 angleMf 0).card = 1 ∧ (fullTerms 7 angleMf 179).card = 1) ∧
    (∀ u ∈ xUniverse,
      degreeSum 5 xMf u = 1 ∧ (nonzeroTerms 5 xMf u).card ≤ 2) ∧
    ((fullTerms 5 xMf 0).card = 1 ∧ (fullTerms 5 xMf 10).card = 1) ∧
    (∀ u ∈ movementUniverse,
      degreeSum 7 movementMf u = 1 ∧ (nonzeroTerms 7 movementMf u).card ≤ 2) ∧
    ((fullTerms 7 movementMf (-30)).card = 1 ∧
      (fullTerms 7 movementMf 30).card = 1) := by
  refine ⟨fun u hu => ?_, ⟨?_, ?_⟩, fun u hu => ?_, ⟨?_, ?_⟩, fun u hu => ?_, ⟨?_, ?_⟩⟩
  · have hb := mem_arange1 hu
    push_cast at hb
    exact ⟨automf_partition_sum (by norm_num) (by norm_num) hb.1 (by linarith [hb.2]),
      automf_nonzero_card (by norm_num) (by norm_num) hb.1 (by linarith [hb.2])⟩
  · show (fullTerms 7 (automfTerm 0 179 7) 0).card = 1
    rw [automf_full_lo (by norm_num : (0:ℚ) < 179) (by norm_num : 2 ≤ 7)]
    simp
  · show (fullTerms 7 (automfTerm 0 179 7) 179).card = 1
    rw [automf_full_hi (by norm_num : (0:ℚ) < 179) (by norm_num : 2 ≤ 7)]
    simp
  · have hb := mem_arange1 hu
    push_cast at hb
    exact ⟨automf_partition_sum (by norm_num) (by norm_num) hb.1 (by linarith [hb.2]),
      automf_nonzero_card (by norm_num) (by norm_num) hb.1 (by linarith [hb.2])⟩
  · show (fullTerms 5 (automfTerm 0 10 5) 0).card = 1
    rw [automf_full_lo (by norm_num : (0:ℚ) < 10) (by norm_num : 2 ≤ 5)]
    simp
  · show (fullTerms 5 (automfTerm 0 10 5) 10).card = 1
    rw [automf_full_hi (by norm_num : (0:ℚ) < 10) (by norm_num : 2 ≤ 5)]
    simp
  · have hb := mem_arange1 hu
    push_cast at hb
    exact ⟨automf_partition_sum (by norm_num) (by norm_num) (by linarith [hb.1]) (by linarith [hb.2]),
      automf_nonzero_card (by norm_num) (by norm_num) (by linarith [hb.1]) (by linarith [hb.2])⟩
  · show (fullTerms 7 (automfTerm (-30) 30 7) (-30)).card = 1
    rw [automf_full_lo (by norm_num : (-30:ℚ) < 30) (by norm_num : 2 ≤ 7)]
    simp
  · show (fullTerms 7 (automfTerm (-30) 30 7) 30).card = 1
    rw [automf_full_hi (by norm_num : (-30:ℚ) < 30) (by norm_num : 2 ≤ 7)]
    simp

theorem claim_C7_witness :
    degreeSum 7 angleMf 90 = 1 ∧ (nonzeroTerms 7 angleMf 90).card ≤ 2 :=
  claim_C7.1 90
    (by simpa [angleUniverse] using @arange1_mem 0 180 90 (by norm_num) (by norm_num))

/-- C9: the rule base pairs all 7 angle terms with all 5 position terms
exactly once (35 rules); for in-domain inputs some rule always fires
with positive strength, `compute` yields a crisp output inside
`[-30, 30]`, and `make_movement` accepts the output divided by 30 and
sends it — so neither the no-rule-fired failure nor the out-of-range
error is reachable from in-domain inputs. -/
theorem claim_C9 :
    rules.length = 35 ∧
    (∀ i, i < 7 → ∀ j, j < 5 →
      (rules.filter (fun r => r.angleTerm = i ∧ r.xTerm = j)).length = 1) ∧
    (∀ angle x : ℚ, 0 ≤ angle → angle ≤ 179 → 0 ≤ x → x ≤ 10 →
      (∃ r ∈ rules, 0 < firing angle x r) ∧
      ∃ out, compute angle x = some out ∧ -30 ≤ out ∧ out ≤ 30 ∧
        make_movement (out / 30) =
          (Except.ok (), [NetEvent.sendMovement (out / 30)])) := by
  refine ⟨by decide, by decide, fun angle x h1 h2 h3 h4 => ?_⟩
  refine ⟨exists_positive_firing h1 h2 h3 h4, ?_⟩
  obtain ⟨out, hc, hlo, hhi⟩ := compute_in_range h1 h2 h3 h4
  refine ⟨out, hc, hlo, hhi, ?_⟩
  unfold make_movement
  rw [if_neg]
  push_neg
  constructor
  · unfold lowerLimit
    rw [le_div_iff₀ (by norm_num : (0:ℚ) < 30)]
    linarith
  · unfold upperLimit
    rw [div_le_iff₀ (by norm_num : (0:ℚ) < 30)]
    linarith

theorem claim_C9_witness :
    (∃ r ∈ rules, 0 < firing 90 5 r) ∧
    ∃ out, compute 90 5 = some out ∧ -30 ≤ out ∧ out ≤ 30 ∧
      make_movement (out / 30) =
        (Except.ok (), [NetEvent.sendMovement (out / 30)]) :=
  claim_C9.2.2 90 5 (by norm_num) (by norm_num) (by norm_num) (by norm_num)

/-- C1: at angle 90 and position 0.5 (x fed as 5), the rule
`at_90 ∧ centered → ZE` (indices `⟨3, 2, 3⟩`) attains the maximal firing
strength among the 35 rules — but the defuzzified `movement` output is
exactly `-285/461 ≈ -0.618`, which is **not** within 0.5 of 0: the
`truck_angle` universe misses the sample 180, so the `automf` centers
are skewed (`at_90` peaks at 89.5 instead of 90). -/
theorem claim_C1 :
    FRule.mk 3 2 3 ∈ rules ∧
    (∀ r ∈ rules, firing 90 5 r ≤ firing 90 5 ⟨3, 2, 3⟩) ∧
    compute 90 5 = some (-285/461) ∧ ¬ |(-285/461 : ℚ) - 0| ≤ 1/2 := by
  refine ⟨by decide, ?_, compute_90_5, ?_⟩
  · intro r hr
    fin_cases hr <;>
      simp only [firing, angleMf_90_0, angleMf_90_1, angleMf_90_2,
        angleMf_90_3, angleMf_90_4, angleMf_90_5, angleMf_90_6,
        xMf_5_0, xMf_5_1, xMf_5_2, xMf_5_3, xMf_5_4] <;>
      norm_num [min_def]
  · rw [sub_zero, abs_of_neg (by norm_num : (-285/461 : ℚ) < 0)]
    norm_num

theorem claim_C1_witness :
    firing 90 5 ⟨0, 0, 6⟩ ≤ firing 90 5 ⟨3, 2, 3⟩ :=
  claim_C1.2.1 ⟨0, 0, 6⟩ (by decide)
